import Mathlib

/-!
Verification of the TDC_UART protocol/pairing/aggregation engine
(`scripts/tdc_uart_scan_GUI.py` and `scripts/tdc_uart_scan.py`).

The Python code is shallowly embedded: pure computations become Lean
functions on `Nat`/`Int`/`ℚ`, the mutable pairing table becomes explicit
state passing (`Nat → Option Pkt`), and the GUI tick loop that drives the
acquisition state machine becomes a fold over the observed pair values.
-/

namespace TDC

/-! ### FrameDecoder

`read_serial_thread` (GUI, lines 311-325) and `receive_data`
(`tdc_uart_scan.py`, lines 259-275) accumulate incoming bytes in a buffer
and strip complete 4-byte packets off the front, decoding each with
`struct.unpack('<I', packet)` (little-endian 32-bit). -/

/-- `struct.unpack('<I', [b0,b1,b2,b3])`: little-endian 32-bit word. -/
def leWord (b0 b1 b2 b3 : Nat) : Nat :=
  b0 + 256 * b1 + 65536 * b2 + 16777216 * b3

/-- The `while len(buffer) >= 4` loop: repeatedly remove the first 4 bytes
and decode them; return the decoded words and the leftover buffer. -/
def extractFrames : List Nat → List Nat × List Nat
  | b0 :: b1 :: b2 :: b3 :: rest =>
    let r := extractFrames rest
    (leWord b0 b1 b2 b3 :: r.1, r.2)
  | rest => ([], rest)

/-- Feeding a sequence of reads (`buffer += new_data` then the strip loop),
starting from buffer `buf`: all words produced, and the final buffer. -/
def feedChunks (buf : List Nat) : List (List Nat) → List Nat × List Nat
  | [] => ([], buf)
  | c :: cs =>
    let r1 := extractFrames (buf ++ c)
    let r2 := feedChunks r1.2 cs
    (r1.1 ++ r2.1, r2.2)

theorem extractFrames_short {l : List Nat} (h : l.length < 4) :
    extractFrames l = ([], l) := by
  match l, h with
  | [], _ => rfl
  | [_], _ => rfl
  | [_, _], _ => rfl
  | [_, _, _], _ => rfl
  | _ :: _ :: _ :: _ :: _, h => simp at h; omega

theorem extractFrames_buffer_lt (l : List Nat) :
    (extractFrames l).2.length < 4 := by
  induction l using extractFrames.induct with
  | case1 b0 b1 b2 b3 rest ih => simpa [extractFrames] using ih
  | case2 rest h =>
    rw [extractFrames.eq_def]
    match rest, h with
    | [], _ => simp
    | [_], _ => simp
    | [_, _], _ => simp
    | [_, _, _], _ => simp
    | a :: b :: c :: d :: r, h => exact absurd rfl (h a b c d r)

theorem extractFrames_append (l1 l2 : List Nat) :
    extractFrames (l1 ++ l2) =
      ((extractFrames l1).1 ++ (extractFrames ((extractFrames l1).2 ++ l2)).1,
       (extractFrames ((extractFrames l1).2 ++ l2)).2) := by
  induction l1 using extractFrames.induct with
  | case1 b0 b1 b2 b3 rest ih =>
    simp only [List.cons_append, extractFrames, List.append_assoc, List.append_eq]
    rw [ih]
  | case2 rest h =>
    have hr : extractFrames rest = ([], rest) := by
      rw [extractFrames.eq_def]
      match rest, h with
      | [], _ => simp
      | [_], _ => simp
      | [_, _], _ => simp
      | [_, _, _], _ => simp
      | a :: b :: c :: d :: r, h => exact absurd rfl (h a b c d r)
    rw [hr]
    simp

theorem feedChunks_eq (cs : List (List Nat)) (buf : List Nat)
    (hbuf : buf.length < 4) :
    feedChunks buf cs = extractFrames (buf ++ cs.flatten) := by
  induction cs generalizing buf with
  | nil => simp [feedChunks, extractFrames_short hbuf]
  | cons c cs ih =>
    have h2 := extractFrames_buffer_lt (buf ++ c)
    simp only [feedChunks, ih _ h2, List.flatten_cons, ← List.append_assoc]
    rw [extractFrames_append (buf ++ c) cs.flatten]

/-- **C3.** For every byte sequence whose length is a multiple of 4,
feeding it to the frame decoder across any partition into successive
pushes yields the identical ordered sequence of 4-byte little-endian
frames as feeding it all at once. -/
theorem frameDecoder_split_invariant (chunks : List (List Nat))
    (hlen : chunks.flatten.length % 4 = 0) :
    (feedChunks [] chunks).1 = (extractFrames chunks.flatten).1 := by
  rw [feedChunks_eq chunks [] (by simp)]
  simp

/-- Witness for C3: the bytes `[1,2,3,4,5,6,7,8]` fed one byte at a time
produce the same two little-endian words as fed in a single push. -/
theorem frameDecoder_split_invariant_witness :
    ([[1],[2],[3],[4],[5],[6],[7],[8]] : List (List Nat)).flatten.length % 4 = 0 ∧
      (feedChunks [] [[1],[2],[3],[4],[5],[6],[7],[8]]).1 =
        (extractFrames ([[1,2,3,4,5,6,7,8]] : List (List Nat)).flatten).1 :=
  ⟨by decide,
   (frameDecoder_split_invariant [[1],[2],[3],[4],[5],[6],[7],[8]] (by decide)).trans
     (by decide)⟩

/-! ### CommandEncoder

`send_command` (`tdc_uart_scan.py`, lines 188-192) packs the command word:
each field is masked to its bit width and placed by left-shift + OR.
The decode functions read the fields back per the documented layout
(type at bit 31, scan_mode at 30, channel at 29:28, phase at 27:20,
pixel_control at 19:12). -/

def send_command_word (cmd_type scan_mode channel phase pixel_control : Nat) : Nat :=
  ((cmd_type &&& 0x1) <<< 31) |||
  ((scan_mode &&& 0x1) <<< 30) |||
  ((channel &&& 0x3) <<< 28) |||
  ((phase &&& 0xFF) <<< 20) |||
  ((pixel_control &&& 0xFF) <<< 12)

def decode_cmd_type (w : Nat) : Nat := (w >>> 31) &&& 0x1

def decode_scan_mode (w : Nat) : Nat := (w >>> 30) &&& 0x1

def decode_channel (w : Nat) : Nat := (w >>> 28) &&& 0x3

def decode_phase (w : Nat) : Nat := (w >>> 20) &&& 0xFF

def decode_pixel_control (w : Nat) : Nat := (w >>> 12) &&& 0xFF

theorem and_three_eq_mod (x : Nat) : x &&& 3 = x % 4 := by
  have h := Nat.and_pow_two_sub_one_eq_mod x 2
  norm_num at h
  exact h

theorem and_255_eq_mod (x : Nat) : x &&& 255 = x % 256 := by
  have h := Nat.and_pow_two_sub_one_eq_mod x 8
  norm_num at h
  exact h

theorem or_eq_add {i : Nat} (a : Nat) {b : Nat} (hb : b < 2 ^ i) :
    (a * 2 ^ i) ||| b = a * 2 ^ i + b := by
  rw [Nat.mul_comm a, ← Nat.mul_add_lt_is_or hb]

theorem send_command_word_eq (t s c p pc : Nat) :
    send_command_word t s c p pc =
      (t % 2) * 2 ^ 31 + ((s % 2) * 2 ^ 30 + ((c % 4) * 2 ^ 28 +
        ((p % 256) * 2 ^ 20 + (pc % 256) * 2 ^ 12))) := by
  unfold send_command_word
  rw [Nat.and_one_is_mod, Nat.and_one_is_mod, and_three_eq_mod, and_255_eq_mod,
      and_255_eq_mod, Nat.shiftLeft_eq, Nat.shiftLeft_eq, Nat.shiftLeft_eq,
      Nat.shiftLeft_eq, Nat.shiftLeft_eq, Nat.or_assoc, Nat.or_assoc, Nat.or_assoc]
  have h4 : p % 256 < 256 := Nat.mod_lt p (by norm_num)
  have h5 : pc % 256 < 256 := Nat.mod_lt pc (by norm_num)
  have h3 : c % 4 < 4 := Nat.mod_lt c (by norm_num)
  have h2 : s % 2 < 2 := Nat.mod_lt s (by norm_num)
  rw [or_eq_add (p % 256) (show (pc % 256) * 2 ^ 12 < 2 ^ 20 by norm_num; omega),
      or_eq_add (c % 4)
        (show (p % 256) * 2 ^ 20 + (pc % 256) * 2 ^ 12 < 2 ^ 28 by norm_num; omega),
      or_eq_add (s % 2)
        (show (c % 4) * 2 ^ 28 + ((p % 256) * 2 ^ 20 + (pc % 256) * 2 ^ 12) < 2 ^ 30 by
          norm_num; omega),
      or_eq_add (t % 2)
        (show (s % 2) * 2 ^ 30 + ((c % 4) * 2 ^ 28 +
            ((p % 256) * 2 ^ 20 + (pc % 256) * 2 ^ 12)) < 2 ^ 31 by
          norm_num; omega)]

theorem decode_cmd_type_eq (w : Nat) : decode_cmd_type w = w / 2 ^ 31 % 2 := by
  unfold decode_cmd_type
  rw [Nat.shiftRight_eq_div_pow, Nat.and_one_is_mod]

theorem decode_scan_mode_eq (w : Nat) : decode_scan_mode w = w / 2 ^ 30 % 2 := by
  unfold decode_scan_mode
  rw [Nat.shiftRight_eq_div_pow, Nat.and_one_is_mod]

theorem decode_channel_eq (w : Nat) : decode_channel w = w / 2 ^ 28 % 4 := by
  unfold decode_channel
  rw [Nat.shiftRight_eq_div_pow, and_three_eq_mod]

theorem decode_phase_eq (w : Nat) : decode_phase w = w / 2 ^ 20 % 256 := by
  unfold decode_phase
  rw [Nat.shiftRight_eq_div_pow, and_255_eq_mod]

theorem decode_pixel_control_eq (w : Nat) : decode_pixel_control w = w / 2 ^ 12 % 256 := by
  unfold decode_pixel_control
  rw [Nat.shiftRight_eq_div_pow, and_255_eq_mod]

/-- **C4.** Decoding the 32-bit word built by the command encoder under the
command bit layout recovers every field exactly modulo its declared bit
width; arbitrary (out-of-range) inputs are masked silently, so the
round-trip holds for all natural-number inputs with no error case. -/
theorem command_word_roundtrip (t s c p pc : Nat) :
    decode_cmd_type (send_command_word t s c p pc) = t % 2 ∧
    decode_scan_mode (send_command_word t s c p pc) = s % 2 ∧
    decode_channel (send_command_word t s c p pc) = c % 4 ∧
    decode_phase (send_command_word t s c p pc) = p % 256 ∧
    decode_pixel_control (send_command_word t s c p pc) = pc % 256 := by
  rw [decode_cmd_type_eq, decode_scan_mode_eq, decode_channel_eq, decode_phase_eq,
      decode_pixel_control_eq, send_command_word_eq]
  have h1 : t % 2 < 2 := Nat.mod_lt t (by norm_num)
  have h2 : s % 2 < 2 := Nat.mod_lt s (by norm_num)
  have h3 : c % 4 < 4 := Nat.mod_lt c (by norm_num)
  have h4 : p % 256 < 256 := Nat.mod_lt p (by norm_num)
  have h5 : pc % 256 < 256 := Nat.mod_lt pc (by norm_num)
  norm_num
  omega

/-! ### PacketClassifier and PairingEngine

`parse_packet` (GUI, lines 327-346) classifies a 32-bit telemetry word
(type [31:30], id [29:24], fine [23:11], flag [10], coarse [9:0]; type
code 0=UP, 1=DOWN, 2=INFO, 3=CMD).  `update_ui_from_queue` (GUI, lines
769-794) keeps pending UP events in the dict `pending_ups` keyed by id;
a DOWN with a matching id pops the entry and computes the wraparound-
corrected coarse difference, the fine difference, and `delta_ps`. -/

structure Pkt where
  type : Nat
  id : Nat
  coarse : Nat
  fine : Nat
  flag : Nat
  deriving DecidableEq

def parse_packet (raw : Nat) : Pkt :=
  { type := (raw >>> 30) &&& 0x3
    id := (raw >>> 24) &&& 0x3F
    fine := (raw >>> 11) &&& 0x1FFF
    flag := (raw >>> 10) &&& 0x1
    coarse := raw &&& 0x3FF }

structure MeasurementPair where
  up : Pkt
  down : Pkt
  c_diff : Int
  f_diff : Int
  delta : ℚ
  deriving DecidableEq

/-- `c_diff_raw = (pkt["coarse"] - up_pkt["coarse"] + 1024) % 1024`
(Python `%` on a positive modulus is `Int.emod`). -/
def c_diff_raw (up down : Pkt) : Int :=
  ((down.coarse : Int) - (up.coarse : Int) + 1024) % 1024

/-- `c_diff = c_diff_raw - 1024 if c_diff_raw > 512 else c_diff_raw`. -/
def c_diff_corrected (up down : Pkt) : Int :=
  if c_diff_raw up down > 512 then c_diff_raw up down - 1024 else c_diff_raw up down

/-- The measurement record built on a matched (UP, DOWN) pair;
`delta = c_diff * CLK_PERIOD_PS - f_diff`, with the clock period a
configuration parameter `clk`. -/
def mkMeasurement (clk : ℚ) (up down : Pkt) : MeasurementPair :=
  { up := up
    down := down
    c_diff := c_diff_corrected up down
    f_diff := (down.fine : Int) - (up.fine : Int)
    delta := (c_diff_corrected up down : ℚ) * clk -
      (((down.fine : Int) - (up.fine : Int) : Int) : ℚ) }

/-- One step of the pairing engine: UP inserts/overwrites the pending
entry for its id; DOWN pops a matching entry and emits a pair, or is
discarded if none is pending; INFO/CMD events fall through untouched. -/
def ingest (clk : ℚ) (tbl : Nat → Option Pkt) (p : Pkt) :
    (Nat → Option Pkt) × Option MeasurementPair :=
  if p.type = 0 then
    (fun j => if j = p.id then some p else tbl j, none)
  else if p.type = 1 then
    match tbl p.id with
    | some u => (fun j => if j = p.id then none else tbl j, some (mkMeasurement clk u p))
    | none => (tbl, none)
  else (tbl, none)

/-- An UP event with the given id, coarse and fine values. -/
def upPkt (i co fi : Nat) : Pkt := ⟨0, i, co, fi, 1⟩

/-- A DOWN event with the given id, coarse and fine values. -/
def downPkt (i co fi : Nat) : Pkt := ⟨1, i, co, fi, 0⟩

/-- **C1.** On every matched (UP, DOWN) pair the engine emits the
measurement built by `mkMeasurement`, whose coarse difference is the raw
modular difference `(down.coarse - up.coarse + 1024) % 1024` with 1024
subtracted exactly when the raw value exceeds 512, so the corrected value
always lies in the interval (-512, 512]; in particular a raw difference
of 600 is corrected to -424. -/
theorem coarse_wraparound_correction (clk : ℚ) (tbl : Nat → Option Pkt)
    (i uc uf dc df : Nat) :
    (ingest clk ((ingest clk tbl (upPkt i uc uf)).1) (downPkt i dc df)).2 =
      some (mkMeasurement clk (upPkt i uc uf) (downPkt i dc df)) ∧
    (mkMeasurement clk (upPkt i uc uf) (downPkt i dc df)).c_diff =
      (if 512 < c_diff_raw (upPkt i uc uf) (downPkt i dc df) then
        c_diff_raw (upPkt i uc uf) (downPkt i dc df) - 1024
      else c_diff_raw (upPkt i uc uf) (downPkt i dc df)) ∧
    (-512 < (mkMeasurement clk (upPkt i uc uf) (downPkt i dc df)).c_diff ∧
      (mkMeasurement clk (upPkt i uc uf) (downPkt i dc df)).c_diff ≤ 512) ∧
    (c_diff_raw (upPkt 0 0 0) (downPkt 0 600 0) = 600 ∧
      c_diff_corrected (upPkt 0 0 0) (downPkt 0 600 0) = -424) := by
  have h0 : 0 ≤ c_diff_raw (upPkt i uc uf) (downPkt i dc df) :=
    Int.emod_nonneg _ (by norm_num)
  have h1 : c_diff_raw (upPkt i uc uf) (downPkt i dc df) < 1024 :=
    Int.emod_lt_of_pos _ (by norm_num)
  refine ⟨by simp [ingest, upPkt, downPkt], rfl, ?_, by decide⟩
  simp only [mkMeasurement, c_diff_corrected]
  split <;> omega

/-- **C2.** With `COARSE_MODULUS = 1024` and `CLK_PERIOD_PS = 3846`,
ingesting UP{id=5, coarse=1020, fine=100} and then DOWN{id=5, coarse=5,
fine=80} emits a measurement with coarse_diff 9, fine_diff -20 and
`delta_ps = 9 * 3846 - (-20) = 34634` exactly. -/
theorem pairing_example_delta :
    (ingest 3846 (fun _ => none) (upPkt 5 1020 100)).2 = none ∧
    ((ingest 3846 ((ingest 3846 (fun _ => none) (upPkt 5 1020 100)).1)
        (downPkt 5 5 80)).2).map MeasurementPair.c_diff = some 9 ∧
    ((ingest 3846 ((ingest 3846 (fun _ => none) (upPkt 5 1020 100)).1)
        (downPkt 5 5 80)).2).map MeasurementPair.f_diff = some (-20) ∧
    ((ingest 3846 ((ingest 3846 (fun _ => none) (upPkt 5 1020 100)).1)
        (downPkt 5 5 80)).2).map MeasurementPair.delta = some 34634 := by
  refine ⟨rfl, ?_, ?_, ?_⟩ <;>
    simp [ingest, upPkt, downPkt, mkMeasurement, c_diff_corrected, c_diff_raw] <;>
    norm_num

/-- **C5.** A second UP with the same id before a DOWN replaces the
pending entry: after UP(id,a), UP(id,b), DOWN(id,c) the first two
ingestions emit nothing and the third emits exactly the measurement
formed from b and c (never one containing a), with no error. -/
theorem second_up_replaces_pending (clk : ℚ) (tbl : Nat → Option Pkt)
    (i ac af bc bf cc cf : Nat) :
    (ingest clk tbl (upPkt i ac af)).2 = none ∧
    (ingest clk ((ingest clk tbl (upPkt i ac af)).1) (upPkt i bc bf)).2 = none ∧
    (ingest clk ((ingest clk ((ingest clk tbl (upPkt i ac af)).1) (upPkt i bc bf)).1)
        (downPkt i cc cf)).2 =
      some (mkMeasurement clk (upPkt i bc bf) (downPkt i cc cf)) := by
  refine ⟨rfl, rfl, ?_⟩
  simp [ingest, upPkt, downPkt]

/-- **C6.** Ingesting an INFO event, a CMD event, or a DOWN event whose id
has no pending UP entry emits no measurement and leaves the pending table
unchanged. -/
theorem non_pairable_events_ignored (clk : ℚ) (tbl : Nat → Option Pkt) (p : Pkt) :
    (p.type = 2 → ingest clk tbl p = (tbl, none)) ∧
    (p.type = 3 → ingest clk tbl p = (tbl, none)) ∧
    (p.type = 1 → tbl p.id = none → ingest clk tbl p = (tbl, none)) := by
  refine ⟨fun h => ?_, fun h => ?_, fun h hnone => ?_⟩
  · simp [ingest, h]
  · simp [ingest, h]
  · simp [ingest, h, hnone]

/-- Witness for C6 at concrete inputs: the classified INFO word
`0x80000000`, the CMD echo word `0xC0000000`, and the orphan DOWN word
`0x40000000` are all ignored against an empty pending table. -/
theorem non_pairable_events_ignored_witness :
    ingest 0 (fun _ => none) (parse_packet 0x80000000) = (fun _ => none, none) ∧
    ingest 0 (fun _ => none) (parse_packet 0xC0000000) = (fun _ => none, none) ∧
    ingest 0 (fun _ => none) (parse_packet 0x40000000) = (fun _ => none, none) :=
  ⟨(non_pairable_events_ignored 0 (fun _ => none) (parse_packet 0x80000000)).1
      (by decide),
   (non_pairable_events_ignored 0 (fun _ => none) (parse_packet 0xC0000000)).2.1
      (by decide),
   (non_pairable_events_ignored 0 (fun _ => none) (parse_packet 0x40000000)).2.2
      (by decide) rfl⟩

/-- **C10.** Each ingested event modifies at most the pending-table entry
keyed by its own id: every other entry is unchanged, an UP writes exactly
its own entry (emitting nothing), and a matched DOWN clears exactly its
own entry. -/
theorem ingest_frame_property (clk : ℚ) (tbl : Nat → Option Pkt) (p : Pkt) (j : Nat) :
    (j ≠ p.id → (ingest clk tbl p).1 j = tbl j) ∧
    (p.type = 0 → (ingest clk tbl p).1 p.id = some p ∧ (ingest clk tbl p).2 = none) ∧
    (∀ u, p.type = 1 → tbl p.id = some u → (ingest clk tbl p).1 p.id = none) := by
  refine ⟨fun hj => ?_, fun h0 => ?_, fun u h1 hu => ?_⟩
  · by_cases h0 : p.type = 0
    · simp [ingest, h0, hj]
    · by_cases h1 : p.type = 1
      · cases htbl : tbl p.id with
        | none => simp [ingest, h0, h1, htbl]
        | some u => simp [ingest, h0, h1, htbl, hj]
      · simp [ingest, h0, h1]
  · simp [ingest, h0]
  · simp [ingest, h1, hu]

/-- Witness for C10 at concrete inputs: ingesting UP(id=1) leaves key 0
untouched and writes key 1; a matched DOWN(id=1) clears key 1. -/
theorem ingest_frame_property_witness :
    ((ingest 0 (fun _ => none) (upPkt 1 2 3)).1 0 = (fun _ => (none : Option Pkt)) 0) ∧
    ((ingest 0 (fun _ => none) (upPkt 1 2 3)).1 1 = some (upPkt 1 2 3) ∧
      (ingest 0 (fun _ => none) (upPkt 1 2 3)).2 = none) ∧
    ((ingest 0 (fun _ => some (upPkt 1 9 9)) (downPkt 1 5 5)).1 1 = none) :=
  ⟨(ingest_frame_property 0 (fun _ => none) (upPkt 1 2 3) 0).1 (by decide),
   (ingest_frame_property 0 (fun _ => none) (upPkt 1 2 3) 0).2.1 rfl,
   (ingest_frame_property 0 (fun _ => some (upPkt 1 9 9)) (downPkt 1 5 5) 0).2.2
      (upPkt 1 9 9) rfl rfl⟩

/-! ### AcquisitionSequencer

`start_auto_test_fixed` / `start_scan_test` / `run_scan_step` (GUI, lines
390-428) and the pair-counting block of `update_ui_from_queue` (GUI,
lines 796-825).  The sequencer state machine is driven once per emitted
measurement; `R` is `test_target_rounds`, `P` is
`test_target_pairs_per_round`, `rst` the RST checkbox bit. -/

inductive Mode
  | IDLE
  | FIXED
  | SCAN
  deriving DecidableEq

structure SeqState where
  mode : Mode
  test_current_round : Nat
  test_round_pairs : Nat
  scan_step : Nat
  test_delta_values : List ℚ
  scan_results : List (List ℚ)
  latched : Nat
  issued : List Nat
  deriving DecidableEq

/-- The step-`step` stimulus command built by `run_scan_step`:
`(0<<31) | (0<<30) | (0x3<<28) | (0<<20) | (rst<<19) | ((1<<step)<<13)`. -/
def scanCmd (rst step : Nat) : Nat :=
  (0 <<< 31) ||| (0 <<< 30) ||| (0x3 <<< 28) ||| (0 <<< 20) |||
    (rst <<< 19) ||| ((1 <<< step) <<< 13)

/-- `run_scan_step`: latch the current step's command and issue it. -/
def runScanStep (rst : Nat) (s : SeqState) : SeqState :=
  { s with latched := scanCmd rst s.scan_step
           issued := s.issued ++ [scanCmd rst s.scan_step] }

/-- A quiescent session state (all counters zero, nothing issued). -/
def initState : SeqState :=
  { mode := Mode.IDLE, test_current_round := 0, test_round_pairs := 0,
    scan_step := 0, test_delta_values := [], scan_results := List.replicate 6 [],
    latched := 0, issued := [] }

/-- `start_auto_test_fixed`: latch `cmd`, reset counters, issue once. -/
def startFixed (cmd : Nat) (s : SeqState) : SeqState :=
  { s with mode := Mode.FIXED, test_current_round := 0, test_round_pairs := 0,
           test_delta_values := [], latched := cmd, issued := s.issued ++ [cmd] }

/-- `start_scan_test`: reset counters and the six result sets, go to
step 0 and issue the step-0 command. -/
def startScan (rst : Nat) (s : SeqState) : SeqState :=
  runScanStep rst
    { s with mode := Mode.SCAN, test_current_round := 0, test_round_pairs := 0,
             scan_step := 0, scan_results := List.replicate 6 [] }

/-- The `if self.test_mode != "IDLE": if dt_ps_val is not None:` block of
`update_ui_from_queue`, invoked once per emitted measurement value `v`. -/
def onPair (R P rst : Nat) (v : ℚ) (s : SeqState) : SeqState :=
  if s.mode = Mode.IDLE then s
  else
    let s1 :=
      if s.mode = Mode.FIXED then
        { s with test_delta_values := s.test_delta_values ++ [v] }
      else
        { s with scan_results := s.scan_results.set s.scan_step
                  ((s.scan_results.getD s.scan_step []) ++ [v]) }
    let s2 := { s1 with test_round_pairs := s1.test_round_pairs + 1 }
    if P ≤ s2.test_round_pairs then
      let s3 := { s2 with test_current_round := s2.test_current_round + 1,
                          test_round_pairs := 0 }
      if s3.test_current_round < R then
        { s3 with issued := s3.issued ++ [s3.latched] }
      else if s3.mode = Mode.FIXED then
        { s3 with mode := Mode.IDLE }
      else
        let s4 := { s3 with scan_step := s3.scan_step + 1 }
        if s4.scan_step < 6 then
          runScanStep rst { s4 with test_current_round := 0 }
        else
          { s4 with mode := Mode.IDLE }
    else s2

/-- Feed a sequence of observed measurement values to the sequencer. -/
def runPairs (R P rst : Nat) (s : SeqState) (vs : List ℚ) : SeqState :=
  vs.foldl (fun t v => onPair R P rst v t) s

/-- A FIXED session with `target_rounds = 3`, `pulses_per_round = 10`,
latched command `7`, after observing `n` paired measurements. -/
def fixedRun (n : Nat) : SeqState :=
  runPairs 3 10 0 (startFixed 7 initState) (List.replicate n 0)

set_option maxRecDepth 40000 in
/-- **C7.** In FIXED mode with `target_rounds = 3` and
`pulses_per_round = 10`: the latched command is issued once at start and
re-issued exactly twice, when the cumulative pair count reaches 10 and
20; the sequencer stays in FIXED through the first 29 pairs and is IDLE
exactly after the 30th; and the per-round pair counter resets to zero
while the round counter increments each time the counter reaches 10. -/
theorem fixed_mode_sequencing :
    (∀ k, k < 30 → (fixedRun k).mode = Mode.FIXED) ∧
    (fixedRun 30).mode = Mode.IDLE ∧
    (∀ k, k ≤ 30 → (fixedRun k).issued =
      if k < 10 then [7] else if k < 20 then [7, 7] else [7, 7, 7]) ∧
    (∀ k, k ≤ 30 → (fixedRun k).test_round_pairs = k % 10 ∧
      (fixedRun k).test_current_round = k / 10) := by
  refine ⟨?_, by decide, ?_, ?_⟩ <;> decide

/-- Witness for C7 at concrete pair counts: after the 10th pair the
command has been re-issued once, and after 29 pairs the session is still
running. -/
theorem fixed_mode_sequencing_witness :
    ((fixedRun 10).issued =
      if 10 < 10 then [7] else if 10 < 20 then [7, 7] else [7, 7, 7]) ∧
    (fixedRun 29).mode = Mode.FIXED :=
  ⟨fixed_mode_sequencing.2.2.1 10 (by decide),
   fixed_mode_sequencing.1 29 (by decide)⟩

/-! ### StatisticsAggregator

`np.mean` / `np.var` (default `ddof=0`, population variance) / `np.min` /
`np.max` as invoked in `show_analysis_window_scan` (GUI, lines 686-702)
and `save_plot_and_stats` (GUI, lines 516-525); both sites branch to a
distinguished no-data result when the sample list is empty. -/

structure SummaryStats where
  count : Nat
  mean : ℚ
  variance : ℚ
  min : ℚ
  max : ℚ
  deriving DecidableEq

/-- Summary statistics of a sample list: `none` on the empty list
(the code skips / reports "N/A" and never divides by zero), otherwise
count, arithmetic mean, population variance (divide by count, not
count−1), and the extrema.  The reported std dev is `sqrt variance`. -/
def summarize : List ℚ → Option SummaryStats
  | [] => none
  | x :: xs =>
    some { count := (x :: xs).length
           mean := (x :: xs).sum / ((x :: xs).length : ℚ)
           variance := ((x :: xs).map
              (fun y => (y - (x :: xs).sum / ((x :: xs).length : ℚ)) ^ 2)).sum /
                ((x :: xs).length : ℚ)
           min := xs.foldl Min.min x
           max := xs.foldl Max.max x }

/-- **C9.** On every non-empty sample list `summarize` returns the
count (= length), the arithmetic mean, the population variance (divide
by count), and min/max that belong to the list and bound it; the empty
list yields the distinguished no-data result `none` (never a division by
zero).  On `[1,2,3,4,5]` the result is count 5, mean 3, variance 2,
min 1, max 5, and the std dev `sqrt 2` lies between 1.4142 and 1.4143. -/
theorem summarize_spec (x : ℚ) (xs : List ℚ) :
    (∃ st, summarize (x :: xs) = some st ∧
      st.count = (x :: xs).length ∧
      (st.count : ℚ) * st.mean = (x :: xs).sum ∧
      (st.count : ℚ) * st.variance =
        ((x :: xs).map (fun y => (y - st.mean) ^ 2)).sum ∧
      st.min ∈ x :: xs ∧ st.max ∈ x :: xs ∧
      (∀ y ∈ x :: xs, st.min ≤ y ∧ y ≤ st.max)) ∧
    summarize ([] : List ℚ) = none ∧
    summarize [1, 2, 3, 4, 5] = some ⟨5, 3, 2, 1, 5⟩ ∧
    ((14142 : ℚ) / 10000) ^ 2 < 2 ∧ (2 : ℚ) < ((14143 : ℚ) / 10000) ^ 2 := by
  have hlen : (((x :: xs).length : ℚ)) ≠ 0 := Nat.cast_ne_zero.mpr (by simp)
  refine ⟨⟨_, rfl, rfl, ?_, ?_, ?_, ?_, ?_⟩, rfl,
    by norm_num [summarize, List.foldl, min_def, max_def, SummaryStats.mk.injEq],
    by norm_num, by norm_num⟩
  · show ((x :: xs).length : ℚ) * ((x :: xs).sum / ((x :: xs).length : ℚ)) = (x :: xs).sum
    field_simp
  · show ((x :: xs).length : ℚ) *
        (((x :: xs).map
          (fun y => (y - (x :: xs).sum / ((x :: xs).length : ℚ)) ^ 2)).sum /
            ((x :: xs).length : ℚ)) = _
    rw [mul_div_cancel₀ _ hlen]
  · exact List.min?_mem (fun a b => min_choice a b)
      (show (x :: xs).min? = some (xs.foldl Min.min x) from rfl)
  · exact List.max?_mem (fun a b => max_choice a b)
      (show (x :: xs).max? = some (xs.foldl Max.max x) from rfl)
  · intro y hy
    exact ⟨(List.le_min?_iff (fun a b c => le_min_iff)
        (show (x :: xs).min? = some (xs.foldl Min.min x) from rfl)).1 le_rfl y hy,
      (List.max?_le_iff (fun a b c => max_le_iff)
        (show (x :: xs).max? = some (xs.foldl Max.max x) from rfl)).1 le_rfl y hy⟩

/-- Witness for C9 at a concrete sample list: the no-data result on the
empty list and the concrete summary of `[1,2,3,4,5]`. -/
theorem summarize_spec_witness :
    summarize ([] : List ℚ) = none ∧
      summarize [1, 2, 3, 4, 5] = some ⟨5, 3, 2, 1, 5⟩ :=
  ⟨(summarize_spec 0 []).2.1, (summarize_spec 0 []).2.2.1⟩

/-! ### SCAN-session characterization (C8)

Helper lemmas, then an invariant over the number of observed pairs. -/

theorem decomp_lt {R P s r c : Nat} (hs : s < 6) (hr : r < R) (hc : c < P) :
    (s * R + r) * P + c < 6 * (R * P) := by
  have h1 : s * R ≤ 5 * R := Nat.mul_le_mul_right R (by omega)
  have h2 : (s * R + r + 1) * P ≤ 6 * R * P := Nat.mul_le_mul_right P (by omega)
  have h3 : (s * R + r) * P + P = (s * R + r + 1) * P := (Nat.succ_mul _ _).symm
  have h4 : 6 * R * P = 6 * (R * P) := Nat.mul_assoc 6 R P
  omega

theorem map_set_range {α : Type} (n : Nat) (f : Nat → α) (i : Nat) (x : α) :
    ((List.range n).map f).set i x =
      (List.range n).map (fun j => if j = i then x else f j) := by
  apply List.ext_getElem
  · simp
  · intro j h1 h2
    simp only [List.getElem_set, List.getElem_map, List.getElem_range]
    rcases Decidable.em (i = j) with hj | hj
    · simp [hj]
    · have hj' : ¬ j = i := fun h => hj h.symm
      simp [hj, hj']

theorem getD_map_range {α : Type} (n : Nat) (f : Nat → α) (i : Nat) (d : α)
    (hi : i < n) :
    ((List.range n).map f).getD i d = f i := by
  simp [List.getElem?_range hi]

theorem slice_append_before {α : Type} (l : List α) (a : α) (m M : Nat)
    (h : l.length + 1 ≤ m) :
    ((l ++ [a]).drop m).take M = (l.drop m).take M := by
  rw [List.drop_eq_nil_iff.mpr (by simp; omega), List.drop_eq_nil_iff.mpr (by omega)]

theorem slice_append_after {α : Type} (l : List α) (a : α) (m M : Nat)
    (h : m + M ≤ l.length) :
    ((l ++ [a]).drop m).take M = (l.drop m).take M := by
  rw [List.drop_append_eq_append_drop, List.take_append_eq_append_take]
  have h2 : M - (l.drop m).length = 0 := by rw [List.length_drop]; omega
  simp [h2]
  omega

theorem slice_append_current {α : Type} (l : List α) (a : α) (m M : Nat)
    (hm : m ≤ l.length) (hM : l.length < m + M) :
    ((l ++ [a]).drop m).take M = (l.drop m).take M ++ [a] := by
  rw [List.drop_append_eq_append_drop, List.take_append_eq_append_take]
  have h1 : ([a] : List α).drop (m - l.length) = [a] := by
    have h : m - l.length = 0 := by omega
    rw [h]
    rfl
  have h3 : (l.drop m).take M = l.drop m :=
    List.take_of_length_le (by rw [List.length_drop]; omega)
  have h4 : ([a] : List α).take (M - (l.drop m).length) = [a] :=
    List.take_of_length_le (by rw [List.length_drop]; simp; omega)
  rw [h1, h3, h4]

theorem range_mul_map_div {α : Type} (g : Nat → α) (R : Nat) (hR : 0 < R) (m : Nat) :
    (List.range (m * R)).map (fun j => g (j / R)) =
      ((List.range m).map (fun s => List.replicate R (g s))).flatten := by
  induction m with
  | zero => simp
  | succ m ih =>
    rw [Nat.succ_mul, List.range_add, List.map_append, ih, List.range_succ,
        List.map_append, List.flatten_append]
    congr 1
    rw [List.map_map]
    have h2 : ∀ x ∈ List.range R,
        ((fun j => g (j / R)) ∘ (fun x => m * R + x)) x = g m := by
      intro x hx
      have hx' : x < R := List.mem_range.mp hx
      have hdiv : (m * R + x) / R = m := by
        rw [Nat.mul_comm m R, Nat.mul_add_div hR, Nat.div_eq_of_lt hx']
        omega
      simp [hdiv]
    rw [List.map_congr_left h2, List.map_const']
    simp

/-- Decoded shape of the step-`s` stimulus command: channel mask `0b11`
(both edges) and a single-bit CSA excitation mask `1 <<< s`. -/
theorem scanCmd_fields (rst s : Nat) (hrst : rst ≤ 1) (hs : s < 6) :
    decode_channel (scanCmd rst s) = 3 ∧
      (scanCmd rst s >>> 13) &&& 0x3F = 1 <<< s := by
  interval_cases rst <;> interval_cases s <;> exact ⟨by decide, by decide⟩

/-- Explicit branch form of `onPair` on a SCAN-mode state. -/
theorem onPair_scan (R P rst : Nat) (v : ℚ) (st : SeqState)
    (hm : st.mode = Mode.SCAN) :
    onPair R P rst v st =
      if st.test_round_pairs + 1 < P then
        { st with
            scan_results := st.scan_results.set st.scan_step
              ((st.scan_results.getD st.scan_step []) ++ [v])
            test_round_pairs := st.test_round_pairs + 1 }
      else if st.test_current_round + 1 < R then
        { st with
            scan_results := st.scan_results.set st.scan_step
              ((st.scan_results.getD st.scan_step []) ++ [v])
            test_round_pairs := 0
            test_current_round := st.test_current_round + 1
            issued := st.issued ++ [st.latched] }
      else if st.scan_step + 1 < 6 then
        { st with
            scan_results := st.scan_results.set st.scan_step
              ((st.scan_results.getD st.scan_step []) ++ [v])
            test_round_pairs := 0
            test_current_round := 0
            scan_step := st.scan_step + 1
            latched := scanCmd rst (st.scan_step + 1)
            issued := st.issued ++ [scanCmd rst (st.scan_step + 1)] }
      else
        { st with
            scan_results := st.scan_results.set st.scan_step
              ((st.scan_results.getD st.scan_step []) ++ [v])
            test_round_pairs := 0
            test_current_round := st.test_current_round + 1
            scan_step := st.scan_step + 1
            mode := Mode.IDLE } := by
  have h0 : ¬ st.mode = Mode.IDLE := by rw [hm]; simp
  have h0' : ¬ st.mode = Mode.FIXED := by rw [hm]; simp
  by_cases h1 : st.test_round_pairs + 1 < P
  · have hn : ¬ P ≤ st.test_round_pairs + 1 := by omega
    simp [onPair, h0, h0', hn, h1]
  · have hy : P ≤ st.test_round_pairs + 1 := by omega
    by_cases h2 : st.test_current_round + 1 < R
    · simp [onPair, h0, h0', hy, h1, h2]
    · by_cases h3 : st.scan_step + 1 < 6
      · simp [onPair, runScanStep, h0, h0', hy, h1, h2, h3]
      · simp [onPair, h0, h0', hy, h1, h2, h3]

theorem map_range_succ {α : Type} (g : Nat → α) (n : Nat) :
    (List.range (n + 1)).map g = (List.range n).map g ++ [g n] := by
  rw [List.range_add, List.map_append]
  have h1 : List.range 1 = [0] := rfl
  rw [h1]
  simp

/-- Invariant of a SCAN session after `k` observed pairs: the six result
sets hold the first `k` values cut into `R*P`-sized blocks, the issued
command log is determined by the number of completed rounds, and either
`k` decomposes as step/round/pair counters of a running session or the
session is complete and IDLE. -/
def scanInv (R P rst : Nat) (vs : List ℚ) (k : Nat) (st : SeqState) : Prop :=
  st.scan_results = (List.range 6).map
      (fun i => ((vs.take k).drop (i * (R * P))).take (R * P)) ∧
  st.issued = (List.range (min (k / P + 1) (6 * R))).map
      (fun j => scanCmd rst (j / R)) ∧
  ((∃ s r c, s < 6 ∧ r < R ∧ c < P ∧ k = (s * R + r) * P + c ∧
      st.mode = Mode.SCAN ∧ st.scan_step = s ∧ st.test_current_round = r ∧
      st.test_round_pairs = c ∧ st.latched = scanCmd rst s) ∨
    (k = 6 * (R * P) ∧ st.mode = Mode.IDLE))

theorem scanInv_holds (R P rst : Nat) (hR : 0 < R) (hP : 0 < P) (vs : List ℚ)
    (hlen : vs.length = 6 * (R * P)) :
    ∀ k, k ≤ 6 * (R * P) →
      scanInv R P rst vs k
        (runPairs R P rst (startScan rst initState) (vs.take k)) := by
  intro k
  induction k with
  | zero =>
    intro _
    have hstart : runPairs R P rst (startScan rst initState) (vs.take 0) =
        { mode := Mode.SCAN, test_current_round := 0, test_round_pairs := 0,
          scan_step := 0, test_delta_values := [],
          scan_results := List.replicate 6 [],
          latched := scanCmd rst 0, issued := [scanCmd rst 0] } := by
      simp [runPairs, startScan, runScanStep, initState]
    rw [hstart]
    refine ⟨?_, ?_, Or.inl ⟨0, 0, 0, by omega, hR, hP, by simp, rfl, rfl, rfl, rfl, rfl⟩⟩
    · show List.replicate 6 [] = _
      have hcg : ∀ i ∈ List.range 6,
          ((([] : List ℚ).drop (i * (R * P))).take (R * P)) = ([] : List ℚ) :=
        fun i _ => by simp
      rw [List.take_zero, List.map_congr_left hcg, List.map_const', List.length_range]
    · show [scanCmd rst 0] = _
      have hmin : min (0 / P + 1) (6 * R) = 1 := by
        rw [Nat.zero_div]
        exact Nat.min_eq_left (by omega)
      have h1 : List.range 1 = [0] := rfl
      rw [hmin, h1]
      simp only [List.map_cons, List.map_nil, Nat.zero_div]
  | succ k ih =>
    intro hk1
    have hM : 0 < R * P := Nat.mul_pos hR hP
    have hk : k < 6 * (R * P) := by omega
    obtain ⟨hres, hiss, hdec⟩ := ih (by omega)
    rcases hdec with ⟨s, r, c, hs, hr, hc, hkdec, hmode, hstep, hround, hpairs, hlatch⟩ | h
    swap
    · exact absurd h.1 (by omega)
    have hklen : k < vs.length := by omega
    have htake : vs.take (k + 1) = vs.take k ++ [vs[k]] := by
      rw [List.take_succ, List.getElem?_eq_getElem hklen]
      rfl
    have hrun : runPairs R P rst (startScan rst initState) (vs.take (k + 1)) =
        onPair R P rst vs[k]
          (runPairs R P rst (startScan rst initState) (vs.take k)) := by
      rw [htake]
      simp only [runPairs, List.foldl_append, List.foldl_cons, List.foldl_nil]
    rw [hrun]
    set v := vs[k] with hv
    set st := runPairs R P rst (startScan rst initState) (vs.take k) with hstdef
    rw [onPair_scan R P rst v st hmode]
    -- shared arithmetic
    have hd : r * P + c < R * P := by
      have h1 := Nat.mul_le_mul_right P (show r + 1 ≤ R by omega)
      rw [Nat.succ_mul] at h1
      omega
    have hksp : k = s * (R * P) + (r * P + c) := by
      rw [hkdec]
      ring
    have hdivP : k / P = s * R + r := by
      rw [hkdec, Nat.mul_comm (s * R + r) P, Nat.mul_add_div hP, Nat.div_eq_of_lt hc]
      omega
    have hltk : (vs.take k).length = k := by
      rw [List.length_take]
      omega
    have h5R : s * R ≤ 5 * R := Nat.mul_le_mul_right R (by omega)
    have h6R : 5 * R + R = 6 * R := by ring
    -- the updated result sets (common to every branch)
    have hresnew :
        st.scan_results.set st.scan_step
            ((st.scan_results.getD st.scan_step []) ++ [v]) =
          (List.range 6).map
            (fun i => ((vs.take (k + 1)).drop (i * (R * P))).take (R * P)) := by
      rw [hstep, hres, getD_map_range _ _ _ _ hs, map_set_range]
      apply List.map_congr_left
      intro i hi
      have hi6 : i < 6 := List.mem_range.mp hi
      rw [htake]
      rcases Nat.lt_trichotomy i s with hlt | heq | hgt
      · have h1 : (i + 1) * (R * P) ≤ s * (R * P) :=
          Nat.mul_le_mul_right _ (by omega)
        rw [Nat.succ_mul] at h1
        rw [if_neg (by omega)]
        rw [slice_append_after _ _ _ _ (by rw [hltk]; omega)]
      · subst heq
        rw [if_pos rfl]
        rw [slice_append_current _ _ _ _ (by rw [hltk]; omega) (by rw [hltk]; omega)]
      · have h1 : (s + 1) * (R * P) ≤ i * (R * P) :=
          Nat.mul_le_mul_right _ (by omega)
        rw [Nat.succ_mul] at h1
        rw [if_neg (by omega)]
        rw [slice_append_before _ _ _ _ (by rw [hltk]; omega)]
    by_cases h1 : c + 1 < P
    · -- mid-round: only the pair counter advances
      rw [if_pos (show st.test_round_pairs + 1 < P by rw [hpairs]; exact h1)]
      have hk1dec : k + 1 = (s * R + r) * P + (c + 1) := by omega
      have hdivP1 : (k + 1) / P = s * R + r := by
        rw [hk1dec, Nat.mul_comm (s * R + r) P, Nat.mul_add_div hP,
          Nat.div_eq_of_lt h1]
        omega
      refine ⟨hresnew, ?_, Or.inl ⟨s, r, c + 1, hs, hr, h1, hk1dec, hmode, hstep,
        hround, by show st.test_round_pairs + 1 = c + 1; rw [hpairs], hlatch⟩⟩
      show st.issued = _
      rw [hiss, hdivP, hdivP1]
    · have hcP : c + 1 = P := by omega
      rw [if_neg (show ¬ st.test_round_pairs + 1 < P by rw [hpairs]; omega)]
      have hsucc : (s * R + r) * P + P = (s * R + r + 1) * P := (Nat.succ_mul _ _).symm
      have hk1P : k + 1 = (s * R + r + 1) * P := by omega
      have hj : (k + 1) / P = s * R + r + 1 := by
        rw [hk1P, Nat.mul_div_cancel _ hP]
      by_cases h2 : r + 1 < R
      · -- round complete, more rounds to go: re-issue the latched command
        rw [if_pos (show st.test_current_round + 1 < R by rw [hround]; exact h2)]
        have hjle : s * R + r + 1 ≤ 6 * R - 1 := by omega
        have hk1dec : k + 1 = (s * R + (r + 1)) * P + 0 := by
          rw [hk1P]
          ring_nf
        have hjR : (s * R + r + 1) / R = s := by
          have he : s * R + r + 1 = R * s + (r + 1) := by
            have : R * s = s * R := Nat.mul_comm R s
            omega
          rw [he, Nat.mul_add_div hR, Nat.div_eq_of_lt h2]
          omega
        refine ⟨hresnew, ?_, Or.inl ⟨s, r + 1, 0, hs, h2, hP, hk1dec, hmode, hstep,
          by show st.test_current_round + 1 = r + 1; rw [hround], rfl, hlatch⟩⟩
        show st.issued ++ [st.latched] = _
        rw [hiss, hlatch, hdivP, hj,
          Nat.min_eq_left (show s * R + r + 1 ≤ 6 * R by omega),
          Nat.min_eq_left (show s * R + r + 1 + 1 ≤ 6 * R by omega),
          map_range_succ (fun j => scanCmd rst (j / R)) (s * R + r + 1)]
        simp [hjR]
      · have hrR : r + 1 = R := by omega
        rw [if_neg (show ¬ st.test_current_round + 1 < R by rw [hround]; omega)]
        have hsR1 : (s + 1) * R = s * R + R := Nat.succ_mul s R
        by_cases h3 : s + 1 < 6
        · -- step complete: advance to the next step and issue its command
          rw [if_pos (show st.scan_step + 1 < 6 by rw [hstep]; exact h3)]
          have hfac : (s + 1) * R + 0 = s * R + r + 1 := by omega
          have hk1dec : k + 1 = ((s + 1) * R + 0) * P + 0 := by
            rw [hk1P, ← hfac]
            omega
          have h5R' : (s + 1) * R ≤ 5 * R := Nat.mul_le_mul_right R (by omega)
          have hjR2 : (s * R + r + 1) / R = s + 1 := by
            have he : s * R + r + 1 = R * (s + 1) := by
              have : R * (s + 1) = s * R + R := by ring
              omega
            rw [he, Nat.mul_div_cancel_left _ hR]
          refine ⟨hresnew, ?_, Or.inl ⟨s + 1, 0, 0, h3, hR, hP, hk1dec, hmode,
            by show st.scan_step + 1 = s + 1; rw [hstep], rfl, rfl,
            by show scanCmd rst (st.scan_step + 1) = scanCmd rst (s + 1); rw [hstep]⟩⟩
          show st.issued ++ [scanCmd rst (st.scan_step + 1)] = _
          rw [hstep, hiss, hdivP, hj,
            Nat.min_eq_left (show s * R + r + 1 ≤ 6 * R by omega),
            Nat.min_eq_left (show s * R + r + 1 + 1 ≤ 6 * R by omega),
            map_range_succ (fun j => scanCmd rst (j / R)) (s * R + r + 1)]
          simp [hjR2]
        · -- last step complete: the session ends, IDLE
          rw [if_neg (show ¬ st.scan_step + 1 < 6 by rw [hstep]; omega)]
          have hs5 : s = 5 := by omega
          subst hs5
          have hj6 : 5 * R + r + 1 = 6 * R := by omega
          have hk16 : k + 1 = 6 * (R * P) := by
            have h1 : (5 * R + r + 1) * P = 6 * R * P := by rw [hj6]
            have h66 : 6 * R * P = 6 * (R * P) := by ring
            omega
          refine ⟨hresnew, ?_, Or.inr ⟨hk16, rfl⟩⟩
          show st.issued = _
          rw [hiss, hdivP, hj, hj6,
            Nat.min_eq_left (show 6 * R ≤ 6 * R from le_rfl),
            Nat.min_eq_right (show 6 * R ≤ 6 * R + 1 by omega)]

/-- **C8.** A SCAN session starts at step 0 and visits steps 0..5 in
increasing order: after `k < 6*R*P` paired samples it is still in SCAN
mode at step `k / (R*P)`, and it reaches IDLE exactly when all `6*R*P`
samples have arrived.  The six distinct result sets receive the six
consecutive `R*P`-sized blocks of observed values (each of length `R*P`),
and the command log is each step's stimulus command issued `R` times in
step order, where step `s`'s command carries channel mask `0b11` (both
edges) and the single-bit excitation mask `1 <<< s`. -/
theorem scan_session_characterization (R P rst : Nat) (hR : 0 < R) (hP : 0 < P)
    (hrst : rst ≤ 1) (vs : List ℚ) (hlen : vs.length = 6 * (R * P)) :
    (startScan rst initState).scan_step = 0 ∧
    (∀ k, k < 6 * (R * P) →
      (runPairs R P rst (startScan rst initState) (vs.take k)).mode = Mode.SCAN ∧
      (runPairs R P rst (startScan rst initState) (vs.take k)).scan_step =
        k / (R * P)) ∧
    (runPairs R P rst (startScan rst initState) vs).mode = Mode.IDLE ∧
    (runPairs R P rst (startScan rst initState) vs).scan_results =
      (List.range 6).map (fun i => (vs.drop (i * (R * P))).take (R * P)) ∧
    (∀ i, i < 6 →
      ((runPairs R P rst (startScan rst initState) vs).scan_results.getD i []).length
        = R * P) ∧
    (runPairs R P rst (startScan rst initState) vs).issued =
      ((List.range 6).map (fun s => List.replicate R (scanCmd rst s))).flatten ∧
    (∀ s, s < 6 → decode_channel (scanCmd rst s) = 3 ∧
      (scanCmd rst s >>> 13) &&& 0x3F = 1 <<< s) := by
  have hM : 0 < R * P := Nat.mul_pos hR hP
  have hvs : vs.take (6 * (R * P)) = vs := List.take_of_length_le (by omega)
  obtain ⟨hres, hiss, hdec⟩ := scanInv_holds R P rst hR hP vs hlen (6 * (R * P)) le_rfl
  rw [hvs] at hres hiss hdec
  have hmodeI :
      (runPairs R P rst (startScan rst initState) vs).mode = Mode.IDLE := by
    rcases hdec with ⟨s, r, c, hs, hr, hc, hkdec, -⟩ | ⟨-, hI⟩
    · exact absurd hkdec (by have := decomp_lt hs hr hc; omega)
    · exact hI
  refine ⟨rfl, ?_, hmodeI, ?_, ?_, ?_, fun s hs => scanCmd_fields rst s hrst hs⟩
  · intro k hk
    obtain ⟨-, -, hdk⟩ := scanInv_holds R P rst hR hP vs hlen k (by omega)
    rcases hdk with ⟨s, r, c, hs, hr, hc, hkdec, hmode, hstep, -, -, -⟩ | ⟨hk6, -⟩
    · refine ⟨hmode, ?_⟩
      have hd : r * P + c < R * P := by
        have h1 := Nat.mul_le_mul_right P (show r + 1 ≤ R by omega)
        rw [Nat.succ_mul] at h1
        omega
      have hksp : k = R * P * s + (r * P + c) := by
        rw [hkdec]
        ring
      rw [hstep, hksp, Nat.mul_add_div hM, Nat.div_eq_of_lt hd]
      omega
    · omega
  · rw [hres]
  · intro i hi
    rw [hres, getD_map_range _ _ _ _ hi, List.length_take, List.length_drop]
    have h1 := Nat.mul_le_mul_right (R * P) (show i + 1 ≤ 6 by omega)
    rw [Nat.succ_mul] at h1
    omega
  · rw [hiss]
    have h6RP : 6 * (R * P) / P = 6 * R := by
      rw [show 6 * (R * P) = 6 * R * P by ring, Nat.mul_div_cancel _ hP]
    rw [h6RP, Nat.min_eq_right (by omega), range_mul_map_div _ R hR 6]

/-- Witness for C8 with `target_rounds = 1`, `pulses_per_round = 1` and
six concrete sample values: the session is IDLE after the 6th pair and
each step's result set holds exactly its own sample. -/
theorem scan_session_characterization_witness :
    (runPairs 1 1 0 (startScan 0 initState) ([3, 1, 4, 1, 5, 9] : List ℚ)).mode
        = Mode.IDLE ∧
      (runPairs 1 1 0 (startScan 0 initState) ([3, 1, 4, 1, 5, 9] : List ℚ)).issued
        = ((List.range 6).map (fun s => List.replicate 1 (scanCmd 0 s))).flatten :=
  ⟨(scan_session_characterization 1 1 0 (by decide) (by decide) (by decide)
      [3, 1, 4, 1, 5, 9] (by decide)).2.2.1,
   (scan_session_characterization 1 1 0 (by decide) (by decide) (by decide)
      [3, 1, 4, 1, 5, 9] (by decide)).2.2.2.2.2.1⟩

end TDC
